import Mathlib

/-!
Verification of the line-to-triangle vertex inference engine
(`src/triangle_detector.py`): a shallow embedding of `get_line_length` (kept
as its square, since every use of it only compares lengths and `sqrt` is
strictly monotone), `merge_similar_lines`, `find_line_intersection` and
`find_triangle_vertices`, with exact rational arithmetic in place of IEEE
floats.  The transcendental angle computation `get_line_angle`
(`np.degrees(np.arctan2(dy, dx)) % 180`) is kept abstract as an explicit
function parameter `g : Line → ℚ`; theorems quantify over it, and concrete
scenarios pin it to the exact real values of `arctan2` on the lines involved
(all of which are axis-aligned or diagonal, where those values are exact
multiples of 45).
-/

namespace TriangleDetector

/-- A line segment `(x1, y1, x2, y2)` — source type: 4-tuple of numeric
coordinates. -/
abbrev Line : Type := ℚ × ℚ × ℚ × ℚ

/-- An integer pixel point `(x, y)`. -/
abbrev Point : Type := ℤ × ℤ

/-- Squared Euclidean length of a segment.  The source's `get_line_length`
(line 23) is the square root of this; every use (sort key at lines 45/109,
max key at line 69) only compares lengths, and `sqrt` is strictly monotone. -/
def lengthSq (l : Line) : ℚ :=
  (l.2.2.1 - l.1) ^ 2 + (l.2.2.2 - l.2.1) ^ 2

/-- Circular angular distance, source line 63:
`min(abs(angle - other_angle), 180 - abs(angle - other_angle))`. -/
def angle_diff (a b : ℚ) : ℚ :=
  min |a - b| (180 - |a - b|)

/-- Insert into a descending-by-length list, after every element of strictly
greater length; with `sortLenDesc` this realizes Python's stable
`sorted(lines, key=get_line_length, reverse=True)` (equal keys keep input
order, and `lengthSq x < lengthSq b ↔ length x < length b`). -/
def insertDesc (x : Line) : List Line → List Line
  | [] => [x]
  | b :: l => if lengthSq x < lengthSq b then b :: insertDesc x l else x :: b :: l

/-- Stable descending sort by segment length (source lines 45 and 109). -/
def sortLenDesc (l : List Line) : List Line :=
  l.foldr insertDesc []

/-- One greedy clustering pass of `merge_similar_lines` (source lines 50-66)
on the already length-sorted list: each unconsumed head opens a cluster
`(seed, members)`, consuming every remaining segment whose angular distance
to the seed's angle is strictly below the threshold.  The source's `used`
bookkeeping over the sorted array is rendered as recursion on the list of
still-unconsumed segments; `fuel` is an upper bound on the recursion depth
(`mergeGroups` passes the list length) making the recursion structural. -/
def mergeGroupsAux (g : Line → ℚ) (t : ℚ) : ℕ → List Line → List (Line × List Line)
  | 0, _ => []
  | _, [] => []
  | fuel + 1, line :: rest =>
    let grp := rest.filter fun o => decide (angle_diff (g line) (g o) < t)
    let remaining := rest.filter fun o => !decide (angle_diff (g line) (g o) < t)
    (line, grp) :: mergeGroupsAux g t fuel remaining

/-- The clusters built by `merge_similar_lines` from the length-sorted input:
list of `(seed, other members)` pairs, in the order clusters were opened. -/
def mergeGroups (g : Line → ℚ) (t : ℚ) (sorted_lines : List Line) :
    List (Line × List Line) :=
  mergeGroupsAux g t sorted_lines.length sorted_lines

/-- Python's `max(group, key=get_line_length)` over `cur :: rest`: first
element of maximal length wins (`max` keeps the current value unless the
candidate's key is strictly greater). -/
def pyMaxLen (cur : Line) : List Line → Line
  | [] => cur
  | b :: l => if lengthSq cur < lengthSq b then pyMaxLen b l else pyMaxLen cur l

/-- Embedding of `merge_similar_lines(lines, angle_thresh)` (source lines
36-71) with the
angle function `g` explicit: sort by length descending, greedily cluster by
angular distance to each cluster's seed, return the longest member of each
cluster. -/
def merge_similar_lines (g : Line → ℚ) (lines : List Line) (angle_thresh : ℚ) :
    List Line :=
  (mergeGroups g angle_thresh (sortLenDesc lines)).map fun p => pyMaxLen p.1 p.2

/-- The denominator of the 2×2 linear system, source line 78:
`(x1 - x2) * (y3 - y4) - (y1 - y2) * (x3 - x4)`. -/
def denom (line1 line2 : Line) : ℚ :=
  (line1.1 - line1.2.2.1) * (line2.2.1 - line2.2.2.2) -
    (line1.2.1 - line1.2.2.2) * (line2.1 - line2.2.2.1)

/-- Python `int()`: truncation toward zero. -/
def pyInt (q : ℚ) : ℤ :=
  if q < 0 then ⌈q⌉ else ⌊q⌋

/-- Embedding of `find_line_intersection(line1, line2)` (source lines 74-82):
intersection
of the two infinitely extended lines, `none` when `|denom| < 1e-10`, else the
integer-truncated point at parameter `t` along the first line. -/
def find_line_intersection (line1 line2 : Line) : Option Point :=
  if |denom line1 line2| < 1 / 10000000000 then none
  else
    let t := ((line1.1 - line2.1) * (line2.2.1 - line2.2.2.2) -
        (line1.2.1 - line2.2.1) * (line2.1 - line2.2.2.1)) / denom line1 line2
    some (pyInt (line1.1 + t * (line1.2.2.1 - line1.1)),
          pyInt (line1.2.1 + t * (line1.2.2.2 - line1.2.1)))

/-- Source line 90, `border_margin = int(min(height, width) * 0.05)`: the
product is nonnegative, so `int()` truncation is the floor, and
`floor(min(h,w) * 5 / 100)` is natural-number division. -/
def border_margin (height width : ℕ) : ℕ :=
  min height width * 5 / 100

/-- The `near_border` test of source lines 97-102: both endpoints
individually lie within the margin of some image edge. -/
def near_border (height width : ℕ) (l : Line) : Bool :=
  let bm : ℚ := (border_margin height width : ℚ)
  (decide (l.1 < bm) || decide (l.1 > (width : ℚ) - bm) ||
      decide (l.2.1 < bm) || decide (l.2.1 > (height : ℚ) - bm)) &&
    (decide (l.2.2.1 < bm) || decide (l.2.2.1 > (width : ℚ) - bm) ||
      decide (l.2.2.2 < bm) || decide (l.2.2.2 > (height : ℚ) - bm))

/-- Step 1 of `find_triangle_vertices` (source lines 92-104): keep the
segments that are not `near_border`. -/
def borderFilter (height width : ℕ) (lines : List Line) : List Line :=
  lines.filter fun l => !near_border height width l

/-- Embedding of `itertools.combinations(l, 2)` in its enumeration order. -/
def combinations2 : List Line → List (Line × Line)
  | [] => []
  | x :: xs => (xs.map fun y => (x, y)) ++ combinations2 xs

/-- Source line 146, `tolerance = int(min(height, width) * 0.03)`, again a
nonnegative truncation, i.e. `min(h,w) * 3 / 100` in natural division. -/
def tolerance (height width : ℕ) : ℕ :=
  min height width * 3 / 100

/-- The duplicate test of source line 148 for one already-accepted point `u`:
`abs(v[0]-u[0]) < tolerance and abs(v[1]-u[1]) < tolerance`. -/
def isClose (tol : ℕ) (v u : Point) : Bool :=
  decide (|v.1 - u.1| < (tol : ℤ)) && decide (|v.2 - u.2| < (tol : ℤ))

/-- The deduplication loop of source lines 145-150: scan candidates in ranked
order, appending each one that is not within per-axis tolerance of an
already-accepted point. -/
def dedupAux (tol : ℕ) (unique : List Point) : List Point → List Point
  | [] => unique
  | v :: rest =>
    if unique.any fun u => isClose tol v u then dedupAux tol unique rest
    else dedupAux tol (unique ++ [v]) rest

/-- Insert a ranked candidate into an ascending-by-distance list, after every
element of strictly smaller distance; with `sortDistAsc` this realizes the
stable `vertices.sort(key=lambda v: v[1])` of source line 143 (ties keep the
pair-enumeration order; distances are compared as squares). -/
def insertAsc (x : Point × ℚ) : List (Point × ℚ) → List (Point × ℚ)
  | [] => [x]
  | b :: l => if b.2 < x.2 then b :: insertAsc x l else x :: b :: l

/-- Stable ascending sort of candidates by (squared) distance to centroid. -/
def sortDistAsc (l : List (Point × ℚ)) : List (Point × ℚ) :=
  l.foldr insertAsc []

/-- Embedding of `find_triangle_vertices(lines, img_shape)` (source lines
85-153) with the
angle function `g` explicit and `img_shape[:2] = (height, width)`.  Distances
to the centroid are carried as their squares (`np.sqrt` at line 139 is
strictly monotone and the distance is only used as a sort key). -/
def find_triangle_vertices (g : Line → ℚ) (lines : List Line)
    (height width : ℕ) : List Point :=
  let filtered_lines := borderFilter height width lines
  let sorted_lines := sortLenDesc filtered_lines
  let merged_lines := merge_similar_lines g (sorted_lines.take 50) 15
  if merged_lines.length < 3 then []
  else
    let all_points := (merged_lines.take 6).flatMap fun l =>
      [(l.1, l.2.1), (l.2.2.1, l.2.2.2)]
    let centroid_x := (all_points.map Prod.fst).sum / (all_points.length : ℚ)
    let centroid_y := (all_points.map Prod.snd).sum / (all_points.length : ℚ)
    let margin : ℤ := (border_margin height width : ℤ) * 2
    let vertices := (combinations2 (merged_lines.take 10)).filterMap fun p =>
      (find_line_intersection p.1 p.2).bind fun q =>
        if margin ≤ q.1 ∧ q.1 ≤ (width : ℤ) - margin ∧
            margin ≤ q.2 ∧ q.2 ≤ (height : ℤ) - margin then
          some (q, ((q.1 : ℚ) - centroid_x) ^ 2 + ((q.2 : ℚ) - centroid_y) ^ 2)
        else none
    let ranked := sortDistAsc vertices
    let unique := dedupAux (tolerance height width) [] (ranked.map Prod.fst)
    unique.take 3

/-! Helper lemmas about the sorting and clustering steps. -/

theorem mem_insertDesc {a x : Line} {l : List Line} :
    a ∈ insertDesc x l ↔ a = x ∨ a ∈ l := by
  induction l with
  | nil => simp [insertDesc]
  | cons b l ih =>
    by_cases h : lengthSq x < lengthSq b
    · simp only [insertDesc, if_pos h, List.mem_cons, ih]
      tauto
    · simp only [insertDesc, if_neg h, List.mem_cons]

theorem mem_sortLenDesc {a : Line} {l : List Line} :
    a ∈ sortLenDesc l ↔ a ∈ l := by
  induction l with
  | nil => simp [sortLenDesc]
  | cons b l ih =>
    simp only [sortLenDesc, List.foldr_cons, mem_insertDesc, List.mem_cons]
    rw [sortLenDesc] at ih
    rw [ih]

theorem length_insertDesc (x : Line) (l : List Line) :
    (insertDesc x l).length = l.length + 1 := by
  induction l with
  | nil => rfl
  | cons b l ih =>
    by_cases h : lengthSq x < lengthSq b
    · simp [insertDesc, if_pos h, ih]
    · simp [insertDesc, if_neg h]

theorem length_sortLenDesc (l : List Line) :
    (sortLenDesc l).length = l.length := by
  induction l with
  | nil => rfl
  | cons b l ih =>
    simp only [sortLenDesc, List.foldr_cons, length_insertDesc, List.length_cons]
    rw [sortLenDesc] at ih
    rw [ih]

/-- The descending-length order maintained by the sort. -/
def LenDescOrdered (l : List Line) : Prop :=
  l.Pairwise fun a b => lengthSq b ≤ lengthSq a

theorem lenDescOrdered_insertDesc {x : Line} {l : List Line}
    (h : LenDescOrdered l) : LenDescOrdered (insertDesc x l) := by
  induction l with
  | nil => simp [insertDesc, LenDescOrdered]
  | cons b l ih =>
    rcases (List.pairwise_cons.mp h) with ⟨hb, hl⟩
    by_cases hx : lengthSq x < lengthSq b
    · rw [insertDesc, if_pos hx]
      refine List.pairwise_cons.mpr ⟨?_, ih hl⟩
      intro a ha
      rcases mem_insertDesc.mp ha with rfl | ha
      · exact le_of_lt hx
      · exact hb a ha
    · rw [insertDesc, if_neg hx]
      refine List.pairwise_cons.mpr ⟨?_, h⟩
      intro a ha
      rcases List.mem_cons.mp ha with rfl | ha
      · exact le_of_not_lt hx
      · exact le_trans (hb a ha) (le_of_not_lt hx)

theorem lenDescOrdered_sortLenDesc (l : List Line) :
    LenDescOrdered (sortLenDesc l) := by
  induction l with
  | nil => exact List.Pairwise.nil
  | cons b l ih => exact lenDescOrdered_insertDesc ih

theorem lenDescOrdered_take {l : List Line} (n : ℕ) (h : LenDescOrdered l) :
    LenDescOrdered (l.take n) :=
  List.Pairwise.sublist (List.take_sublist n l) h

/-- Every cluster's seed and members come from the input list. -/
theorem mergeGroupsAux_subset (g : Line → ℚ) (t : ℚ) :
    ∀ (fuel : ℕ) (xs : List Line) (p : Line × List Line),
      p ∈ mergeGroupsAux g t fuel xs → p.1 ∈ xs ∧ ∀ o ∈ p.2, o ∈ xs := by
  intro fuel
  induction fuel with
  | zero => intro xs p hp; simp [mergeGroupsAux] at hp
  | succ fuel ih =>
    intro xs p hp
    match xs with
    | [] => simp [mergeGroupsAux] at hp
    | line :: rest =>
      simp only [mergeGroupsAux, List.mem_cons] at hp
      rcases hp with rfl | hp
      · refine ⟨List.mem_cons_self _ _, ?_⟩
        intro o ho
        exact List.mem_cons_of_mem _ (List.mem_filter.mp ho).1
      · rcases ih _ p hp with ⟨h1, h2⟩
        refine ⟨List.mem_cons_of_mem _ (List.mem_filter.mp h1).1, ?_⟩
        intro o ho
        exact List.mem_cons_of_mem _ (List.mem_filter.mp (h2 o ho)).1

/-- Every non-seed member of a cluster is strictly within the threshold of
the cluster's seed. -/
theorem mergeGroupsAux_members_close (g : Line → ℚ) (t : ℚ) :
    ∀ (fuel : ℕ) (xs : List Line) (p : Line × List Line),
      p ∈ mergeGroupsAux g t fuel xs → ∀ o ∈ p.2, angle_diff (g p.1) (g o) < t := by
  intro fuel
  induction fuel with
  | zero => intro xs p hp; simp [mergeGroupsAux] at hp
  | succ fuel ih =>
    intro xs p hp
    match xs with
    | [] => simp [mergeGroupsAux] at hp
    | line :: rest =>
      simp only [mergeGroupsAux, List.mem_cons] at hp
      rcases hp with rfl | hp
      · intro o ho
        have := (List.mem_filter.mp ho).2
        simpa using this
      · exact ih _ p hp

/-- Angular distance is symmetric. -/
theorem angle_diff_comm (a b : ℚ) : angle_diff a b = angle_diff b a := by
  unfold angle_diff
  rw [abs_sub_comm]

/-- Cluster seeds are pairwise at angular distance at least the threshold:
when a later seed was scanned by an earlier cluster it was left unconsumed,
which is exactly `¬(angle_diff < t)`. -/
theorem mergeGroupsAux_seeds_pairwise (g : Line → ℚ) (t : ℚ) :
    ∀ (fuel : ℕ) (xs : List Line),
      ((mergeGroupsAux g t fuel xs).map Prod.fst).Pairwise
        fun a b => t ≤ angle_diff (g a) (g b) := by
  intro fuel
  induction fuel with
  | zero => intro xs; simp [mergeGroupsAux]
  | succ fuel ih =>
    intro xs
    match xs with
    | [] => simp [mergeGroupsAux]
    | line :: rest =>
      simp only [mergeGroupsAux, List.map_cons]
      refine List.pairwise_cons.mpr ⟨?_, ih _⟩
      intro b hb
      rcases List.mem_map.mp hb with ⟨p, hp, rfl⟩
      have hmem := (mergeGroupsAux_subset g t fuel _ p hp).1
      have hfil := (List.mem_filter.mp hmem).2
      simp only [Bool.not_eq_eq_eq_not, Bool.not_true, decide_eq_false_iff_not,
        not_lt] at hfil
      exact hfil

/-- The function `pyMaxLen` returns its first argument when nothing in the list is
strictly longer. -/
theorem pyMaxLen_eq_self {cur : Line} {l : List Line}
    (h : ∀ b ∈ l, lengthSq b ≤ lengthSq cur) : pyMaxLen cur l = cur := by
  induction l with
  | nil => rfl
  | cons b l ih =>
    have hb := h b (List.mem_cons_self _ _)
    rw [pyMaxLen, if_neg (not_lt.mpr hb)]
    exact ih fun x hx => h x (List.mem_cons_of_mem _ hx)

/-- On a length-sorted input every cluster representative (its longest
member, first wins on ties) is the cluster's seed. -/
theorem mergeGroupsAux_reps_eq_seeds (g : Line → ℚ) (t : ℚ) :
    ∀ (fuel : ℕ) (xs : List Line), LenDescOrdered xs →
      ((mergeGroupsAux g t fuel xs).map fun p => pyMaxLen p.1 p.2) =
        (mergeGroupsAux g t fuel xs).map Prod.fst := by
  intro fuel
  induction fuel with
  | zero => intro xs _; simp [mergeGroupsAux]
  | succ fuel ih =>
    intro xs hxs
    match xs with
    | [] => simp [mergeGroupsAux]
    | line :: rest =>
      rcases List.pairwise_cons.mp hxs with ⟨hhead, hrest⟩
      simp only [mergeGroupsAux, List.map_cons]
      congr 1
      · exact pyMaxLen_eq_self fun b hb =>
          hhead b (List.mem_filter.mp hb).1
      · exact ih _ (List.Pairwise.sublist (List.filter_sublist _) hrest)

theorem mergeGroupsAux_length (g : Line → ℚ) (t : ℚ) :
    ∀ (fuel : ℕ) (xs : List Line),
      (mergeGroupsAux g t fuel xs).length ≤ xs.length := by
  intro fuel
  induction fuel with
  | zero => intro xs; simp [mergeGroupsAux]
  | succ fuel ih =>
    intro xs
    match xs with
    | [] => simp [mergeGroupsAux]
    | line :: rest =>
      simp only [mergeGroupsAux, List.length_cons]
      have := ih (rest.filter fun o => !decide (angle_diff (g line) (g o) < t))
      have hle := List.length_filter_le
        (fun o => !decide (angle_diff (g line) (g o) < t)) rest
      omega

/-- The per-axis closeness test is symmetric. -/
theorem isClose_comm (tol : ℕ) (v u : Point) : isClose tol v u = isClose tol u v := by
  unfold isClose
  rw [abs_sub_comm v.1 u.1, abs_sub_comm v.2 u.2]

/-- Mutual separation of a list of accepted points. -/
def Separated (tol : ℕ) (l : List Point) : Prop :=
  l.Pairwise fun a b => ¬(|a.1 - b.1| < (tol : ℤ) ∧ |a.2 - b.2| < (tol : ℤ))

theorem isClose_eq_false_iff {tol : ℕ} {v u : Point} :
    isClose tol v u = false ↔
      ¬(|v.1 - u.1| < (tol : ℤ) ∧ |v.2 - u.2| < (tol : ℤ)) := by
  simp [isClose]

/-- The deduplication loop preserves mutual separation of the accepted
prefix: a candidate is appended only when it is not close to any already
accepted point. -/
theorem dedupAux_separated (tol : ℕ) :
    ∀ (rest acc : List Point), Separated tol acc →
      Separated tol (dedupAux tol acc rest) := by
  intro rest
  induction rest with
  | nil => intro acc h; exact h
  | cons v rest ih =>
    intro acc hacc
    by_cases hdup : (acc.any fun u => isClose tol v u) = true
    · rw [dedupAux, if_pos hdup]
      exact ih acc hacc
    · rw [dedupAux, if_neg hdup]
      refine ih _ ?_
      rw [List.any_eq_true] at hdup
      push_neg at hdup
      refine List.pairwise_append.mpr ⟨hacc, List.pairwise_singleton _ _, ?_⟩
      intro a ha b hb
      rcases List.mem_singleton.mp hb with rfl
      have hf : isClose tol b a = false := by simpa using hdup a ha
      rw [isClose_comm] at hf
      exact isClose_eq_false_iff.mp hf

/-- The clustering pass only evaluates the angle function on members of its
input list. -/
theorem mergeGroupsAux_congr {g g' : Line → ℚ} (t : ℚ) :
    ∀ (fuel : ℕ) (xs : List Line), (∀ l ∈ xs, g l = g' l) →
      mergeGroupsAux g t fuel xs = mergeGroupsAux g' t fuel xs := by
  intro fuel
  induction fuel with
  | zero => intro xs _; simp [mergeGroupsAux]
  | succ fuel ih =>
    intro xs hxs
    match xs with
    | [] => rfl
    | line :: rest =>
      have hline := hxs line (List.mem_cons_self _ _)
      have hrest : ∀ l ∈ rest, g l = g' l := fun l hl =>
        hxs l (List.mem_cons_of_mem _ hl)
      have h1 : rest.filter (fun o => decide (angle_diff (g line) (g o) < t)) =
          rest.filter fun o => decide (angle_diff (g' line) (g' o) < t) :=
        List.filter_congr fun o ho => by rw [hline, hrest o ho]
      have h2 : rest.filter (fun o => !decide (angle_diff (g line) (g o) < t)) =
          rest.filter fun o => !decide (angle_diff (g' line) (g' o) < t) :=
        List.filter_congr fun o ho => by rw [hline, hrest o ho]
      simp only [mergeGroupsAux]
      rw [h1, h2, ih _ fun l hl => hrest l (List.mem_filter.mp hl).1]

/-- The merge step only evaluates the angle function on members of
its input list. -/
theorem merge_similar_lines_congr {g g' : Line → ℚ} {lines : List Line}
    (t : ℚ) (h : ∀ l ∈ lines, g l = g' l) :
    merge_similar_lines g lines t = merge_similar_lines g' lines t := by
  unfold merge_similar_lines mergeGroups
  rw [mergeGroupsAux_congr t _ _ fun l hl => h l (mem_sortLenDesc.mp hl)]

/-- The whole pipeline only evaluates the angle function on members of
its input list. -/
theorem find_triangle_vertices_congr {g g' : Line → ℚ} {lines : List Line}
    (height width : ℕ) (h : ∀ l ∈ lines, g l = g' l) :
    find_triangle_vertices g lines height width =
      find_triangle_vertices g' lines height width := by
  have hm : merge_similar_lines g
        ((sortLenDesc (borderFilter height width lines)).take 50) 15 =
      merge_similar_lines g'
        ((sortLenDesc (borderFilter height width lines)).take 50) 15 := by
    refine merge_similar_lines_congr 15 fun l hl => ?_
    have : l ∈ sortLenDesc (borderFilter height width lines) :=
      (List.take_sublist _ _).subset hl
    exact h l (List.mem_filter.mp (mem_sortLenDesc.mp this)).1
  simp only [find_triangle_vertices, hm]

/-- Exact values of `np.degrees(np.arctan2(dy, dx)) % 180` for segments whose
direction is axis-aligned or diagonal (the only directions appearing in the
concrete scenarios below): horizontal ↦ 0, vertical ↦ 90, slope 1 ↦ 45,
slope −1 ↦ 135.  Other directions (unused here) are mapped to 0. -/
def exactAngle (l : Line) : ℚ :=
  let dx := l.2.2.1 - l.1
  let dy := l.2.2.2 - l.2.1
  if dy = 0 then 0
  else if dx = 0 then 90
  else if dy = dx then 45
  else if dy = -dx then 135
  else 0

/-! Structural facts about `find_triangle_vertices`. -/

/-- Early exit (source lines 115-117): fewer than 3 merged lines give `[]`. -/
theorem find_short_eq_nil (g : Line → ℚ) (lines : List Line) (height width : ℕ)
    (hlt : (merge_similar_lines g
        ((sortLenDesc (borderFilter height width lines)).take 50) 15).length < 3) :
    find_triangle_vertices g lines height width = [] := by
  simp only [find_triangle_vertices]
  rw [if_pos hlt]

/-- The final `unique[:3]` caps the output at 3 points. -/
theorem find_length_le_three (g : Line → ℚ) (lines : List Line)
    (height width : ℕ) :
    (find_triangle_vertices g lines height width).length ≤ 3 := by
  simp only [find_triangle_vertices]
  split
  · simp
  · rw [List.length_take]
    exact min_le_left _ _

/-- Every output of `find_triangle_vertices` is mutually separated at the
dedup tolerance. -/
theorem find_separated (g : Line → ℚ) (lines : List Line) (height width : ℕ) :
    Separated (tolerance height width)
      (find_triangle_vertices g lines height width) := by
  simp only [find_triangle_vertices]
  split
  · exact List.Pairwise.nil
  · exact List.Pairwise.sublist (List.take_sublist _ _)
      (dedupAux_separated _ _ [] List.Pairwise.nil)

/-- Index form of mutual separation, using symmetry of the per-axis test. -/
theorem separated_get {tol : ℕ} {l : List Point} (h : Separated tol l)
    (i j : ℕ) (hi : i < l.length) (hj : j < l.length) (hij : i ≠ j) :
    ¬(|(l.get ⟨i, hi⟩).1 - (l.get ⟨j, hj⟩).1| < (tol : ℤ) ∧
      |(l.get ⟨i, hi⟩).2 - (l.get ⟨j, hj⟩).2| < (tol : ℤ)) := by
  rcases Nat.lt_or_ge i j with hlt | hge
  · exact List.pairwise_iff_get.mp h ⟨i, hi⟩ ⟨j, hj⟩ hlt
  · have hlt : j < i := Nat.lt_of_le_of_ne hge (Ne.symm hij)
    have := List.pairwise_iff_get.mp h ⟨j, hj⟩ ⟨i, hi⟩ hlt
    rw [abs_sub_comm (l.get ⟨j, hj⟩).1, abs_sub_comm (l.get ⟨j, hj⟩).2] at this
    exact this

/-! The claims. -/

/-- C1, counterexample: on the spec's end-to-end scenario — segments
`A=(0,0,100,0)`, `B=(100,0,0,100)`, `C=(0,100,0,0)` in a 120×120 frame —
the code returns `[]`, not 3 vertices: with border margin
`int(120*0.05) = 6`, both endpoints of every one of the three segments lie
within the margin of an image edge (`y=0`, `x=0`, or both), so the border
filter drops all of them.  `exactAngle` takes the exact real values of
`degrees(atan2) % 180` on these axis-aligned/diagonal segments, as the
conjuncts record. -/
theorem claim1_counterexample :
    find_triangle_vertices exactAngle
        [(0, 0, 100, 0), (100, 0, 0, 100), (0, 100, 0, 0)] 120 120 = [] ∧
      border_margin 120 120 = 6 ∧
      exactAngle (0, 0, 100, 0) = 0 ∧ exactAngle (100, 0, 0, 100) = 135 ∧
      exactAngle (0, 100, 0, 0) = 90 := by
  with_unfolding_all decide

/-- C1, amended: the same right triangle shifted into the image interior —
segments `A=(20,20,100,20)`, `B=(100,20,20,100)`, `C=(20,100,20,20)` in a
120×120 frame — yields exactly the 3 vertices `(20,20)`, `(100,20)`,
`(20,100)` (here exactly, hence within any tolerance), for every angle
function agreeing with the exact `degrees(atan2) % 180` values 0, 135, 90 of
the three segments. -/
theorem claim1_amended_interior_triangle (g : Line → ℚ)
    (hA : g (20, 20, 100, 20) = 0) (hB : g (100, 20, 20, 100) = 135)
    (hC : g (20, 100, 20, 20) = 90) :
    find_triangle_vertices g
        [(20, 20, 100, 20), (100, 20, 20, 100), (20, 100, 20, 20)] 120 120 =
      [(20, 20), (100, 20), (20, 100)] := by
  have hagree : ∀ l ∈ ([(20, 20, 100, 20), (100, 20, 20, 100),
      (20, 100, 20, 20)] : List Line), g l = exactAngle l := by
    intro l hl
    simp only [List.mem_cons, List.not_mem_nil, or_false] at hl
    rcases hl with rfl | rfl | rfl
    · rw [hA]; with_unfolding_all decide
    · rw [hB]; with_unfolding_all decide
    · rw [hC]; with_unfolding_all decide
  rw [@find_triangle_vertices_congr g exactAngle _ 120 120 hagree]
  with_unfolding_all decide

/-- C1 witness: the amended theorem applied at `exactAngle`. -/
theorem claim1_witness :
    (exactAngle (20, 20, 100, 20) = 0 ∧ exactAngle (100, 20, 20, 100) = 135 ∧
        exactAngle (20, 100, 20, 20) = 90) ∧
      find_triangle_vertices exactAngle
          [(20, 20, 100, 20), (100, 20, 20, 100), (20, 100, 20, 20)] 120 120 =
        [(20, 20), (100, 20), (20, 100)] :=
  ⟨by with_unfolding_all decide,
    claim1_amended_interior_triangle exactAngle (by with_unfolding_all decide)
      (by with_unfolding_all decide) (by with_unfolding_all decide)⟩

/-- C2, counterexample: membership in a cluster is tested against the seed
only, so one cluster can hold two segments whose mutual angular distance
reaches the threshold.  With threshold 60 and segments of angles 0 (seed,
longest), 45 and 135 — exact `degrees(atan2) % 180` values for the
horizontal and the two diagonal segments — both diagonals are within 60 of
the seed and land in its cluster, yet their mutual distance is 90 ≥ 60. -/
theorem claim2_counterexample :
    mergeGroups exactAngle 60
        (sortLenDesc [(0, 0, 10, 0), (0, 0, 3, 3), (0, 0, 2, -2)]) =
      [((0, 0, 10, 0), [(0, 0, 3, 3), (0, 0, 2, -2)])] ∧
      angle_diff (exactAngle (0, 0, 3, 3)) (exactAngle (0, 0, 2, -2)) = 90 ∧
      exactAngle (0, 0, 10, 0) = 0 ∧ exactAngle (0, 0, 3, 3) = 45 ∧
      exactAngle (0, 0, 2, -2) = 135 := by
  with_unfolding_all decide

/-- C2, amended: `merge_similar_lines` never lengthens its input, and no
segment is ever placed in a cluster whose *seed* is at angular distance ≥
the threshold from it (two non-seed members of one cluster may still be up
to twice the threshold apart, as the counterexample shows). -/
theorem claim2_amended_merge_bound (g : Line → ℚ) (lines : List Line) (t : ℚ) :
    (merge_similar_lines g lines t).length ≤ lines.length ∧
      ∀ p ∈ mergeGroups g t (sortLenDesc lines), ∀ o ∈ p.2,
        angle_diff (g p.1) (g o) < t := by
  constructor
  · unfold merge_similar_lines mergeGroups
    rw [List.length_map]
    calc (mergeGroupsAux g t (sortLenDesc lines).length (sortLenDesc lines)).length
        ≤ (sortLenDesc lines).length := mergeGroupsAux_length g t _ _
      _ = lines.length := length_sortLenDesc lines
  · exact mergeGroupsAux_members_close g t _ _

/-- C2 witness: the amended theorem applied at the counterexample input. -/
theorem claim2_witness :
    (merge_similar_lines exactAngle [(0, 0, 10, 0), (0, 0, 3, 3), (0, 0, 2, -2)]
        60).length ≤ 3 ∧
      ∀ p ∈ mergeGroups exactAngle 60
          (sortLenDesc [(0, 0, 10, 0), (0, 0, 3, 3), (0, 0, 2, -2)]),
        ∀ o ∈ p.2, angle_diff (exactAngle p.1) (exactAngle o) < 60 :=
  claim2_amended_merge_bound exactAngle
    [(0, 0, 10, 0), (0, 0, 3, 3), (0, 0, 2, -2)] 60

/-- C3: any two points at distinct positions of the output of
`find_triangle_vertices` fail the per-axis closeness test at tolerance
`int(0.03 * min(height, width))`: the dedup loop accepts a candidate only
when no already-accepted point is close, and the test is symmetric. -/
theorem claim3_vertices_separated (g : Line → ℚ) (lines : List Line)
    (height width : ℕ) (i j : ℕ)
    (hi : i < (find_triangle_vertices g lines height width).length)
    (hj : j < (find_triangle_vertices g lines height width).length)
    (hij : i ≠ j) :
    ¬(|((find_triangle_vertices g lines height width).get ⟨i, hi⟩).1 -
          ((find_triangle_vertices g lines height width).get ⟨j, hj⟩).1| <
        (tolerance height width : ℤ) ∧
      |((find_triangle_vertices g lines height width).get ⟨i, hi⟩).2 -
          ((find_triangle_vertices g lines height width).get ⟨j, hj⟩).2| <
        (tolerance height width : ℤ)) :=
  separated_get (find_separated g lines height width) i j hi hj hij

/-- C3 witness: the separation theorem applied to the first two of the three
vertices computed on the interior-triangle scenario. -/
theorem claim3_witness :
    ¬(|((find_triangle_vertices exactAngle
            [(20, 20, 100, 20), (100, 20, 20, 100), (20, 100, 20, 20)] 120
            120).get ⟨0, by with_unfolding_all decide⟩).1 -
          ((find_triangle_vertices exactAngle
            [(20, 20, 100, 20), (100, 20, 20, 100), (20, 100, 20, 20)] 120
            120).get ⟨1, by with_unfolding_all decide⟩).1| <
        (tolerance 120 120 : ℤ) ∧
      |((find_triangle_vertices exactAngle
            [(20, 20, 100, 20), (100, 20, 20, 100), (20, 100, 20, 20)] 120
            120).get ⟨0, by with_unfolding_all decide⟩).2 -
          ((find_triangle_vertices exactAngle
            [(20, 20, 100, 20), (100, 20, 20, 100), (20, 100, 20, 20)] 120
            120).get ⟨1, by with_unfolding_all decide⟩).2| <
        (tolerance 120 120 : ℤ)) :=
  claim3_vertices_separated exactAngle
    [(20, 20, 100, 20), (100, 20, 20, 100), (20, 100, 20, 20)] 120 120 0 1
    (by with_unfolding_all decide) (by with_unfolding_all decide)
    (by decide)

/-- C4: the output of `find_triangle_vertices` never has more than 3
points — the early exit returns `[]` and the final step returns
`unique[:3]`. -/
theorem claim4_at_most_three (g : Line → ℚ) (lines : List Line)
    (height width : ℕ) :
    (find_triangle_vertices g lines height width).length ≤ 3 :=
  find_length_le_three g lines height width

/-- C5: whenever border filtering plus merging leaves fewer than 3 merged
lines — in particular for zero input lines, or for a single input
segment — `find_triangle_vertices` returns the empty list. -/
theorem claim5_few_lines_empty (g : Line → ℚ) (lines : List Line)
    (height width : ℕ)
    (hlt : (merge_similar_lines g
        ((sortLenDesc (borderFilter height width lines)).take 50) 15).length < 3) :
    find_triangle_vertices g lines height width = [] :=
  find_short_eq_nil g lines height width hlt

/-- C5 witness: a single interior segment survives the filter but yields
only one merged line, so the result is empty. -/
theorem claim5_witness :
    (merge_similar_lines exactAngle
        ((sortLenDesc (borderFilter 120 120 [(0, 50, 100, 50)])).take 50)
        15).length < 3 ∧
      find_triangle_vertices exactAngle [(0, 50, 100, 50)] 120 120 = [] :=
  ⟨by with_unfolding_all decide,
    claim5_few_lines_empty exactAngle [(0, 50, 100, 50)] 120 120
      (by with_unfolding_all decide)⟩

/-- C6: `find_line_intersection` returns `none` exactly when
`|denom| < 1e-10`, and in particular returns `none` for the parallel
segments `A=(0,0,10,0)` and `B=(0,5,10,5)`. -/
theorem claim6_none_iff_small_denom :
    (∀ line1 line2 : Line,
        find_line_intersection line1 line2 = none ↔
          |denom line1 line2| < 1 / 10000000000) ∧
      find_line_intersection (0, 0, 10, 0) (0, 5, 10, 5) = none := by
  constructor
  · intro line1 line2
    unfold find_line_intersection
    by_cases h : |denom line1 line2| < 1 / 10000000000
    · rw [if_pos h]
      simpa using h
    · rw [if_neg h]
      simpa using h
  · with_unfolding_all decide

/-- C6 witness: the characterization applied to another concrete parallel
pair (two segments of slope 1, `denom = 0`). -/
theorem claim6_witness :
    find_line_intersection (0, 0, 1, 1) (0, 1, 1, 2) = none :=
  (claim6_none_iff_small_denom.1 (0, 0, 1, 1) (0, 1, 1, 2)).mpr
    (by with_unfolding_all decide)

/-- C7: the perpendicular crossing segments `A=(0,50,100,50)` and
`B=(50,0,50,100)` intersect exactly at `(50, 50)`. -/
theorem claim7_perpendicular_cross :
    find_line_intersection (0, 50, 100, 50) (50, 0, 50, 100) =
      some (50, 50) := by
  with_unfolding_all decide

/-- C8: the border-filtering step is idempotent: the kept predicate depends
only on the segment and the image shape, so filtering a second time changes
nothing. -/
theorem claim8_borderFilter_idempotent (height width : ℕ) (lines : List Line) :
    borderFilter height width (borderFilter height width lines) =
      borderFilter height width lines := by
  unfold borderFilter
  rw [List.filter_filter]
  exact List.filter_congr fun a _ => Bool.and_self _

/-- C9: `find_triangle_vertices` is deterministic — it is a pure function of
the angle function, the input line list (in order) and the image shape, so
identical inputs give identical outputs; ranking ties are broken by the
fixed pair-enumeration order inside the stable sort. -/
theorem claim9_deterministic (g : Line → ℚ) (lines1 lines2 : List Line)
    (height1 height2 width1 width2 : ℕ) (hl : lines1 = lines2)
    (hh : height1 = height2) (hw : width1 = width2) :
    find_triangle_vertices g lines1 height1 width1 =
      find_triangle_vertices g lines2 height2 width2 := by
  rw [hl, hh, hw]

/-- C9 witness: two runs on the interior-triangle scenario coincide. -/
theorem claim9_witness :
    find_triangle_vertices exactAngle
        [(20, 20, 100, 20), (100, 20, 20, 100), (20, 100, 20, 20)] 120 120 =
      find_triangle_vertices exactAngle
        [(20, 20, 100, 20), (100, 20, 20, 100), (20, 100, 20, 20)] 120 120 :=
  claim9_deterministic exactAngle _ _ 120 120 120 120 rfl rfl rfl

/-- C10: the representatives returned by `merge_similar_lines` are exactly
the cluster seeds (on the length-sorted list every member of a cluster is at
most as long as its seed, and Python's `max` keeps the first maximum), and
any two of them at distinct positions are at angular distance ≥ the
threshold (`angle_diff` is symmetric, so the `Pairwise` order covers both
directions). -/
theorem claim10_representatives_far (g : Line → ℚ) (lines : List Line)
    (t : ℚ) :
    merge_similar_lines g lines t =
        (mergeGroups g t (sortLenDesc lines)).map Prod.fst ∧
      (merge_similar_lines g lines t).Pairwise
        fun a b => t ≤ angle_diff (g a) (g b) := by
  have hreps : merge_similar_lines g lines t =
      (mergeGroups g t (sortLenDesc lines)).map Prod.fst := by
    unfold merge_similar_lines mergeGroups
    exact mergeGroupsAux_reps_eq_seeds g t _ _ (lenDescOrdered_sortLenDesc lines)
  refine ⟨hreps, ?_⟩
  rw [hreps]
  exact mergeGroupsAux_seeds_pairwise g t _ _

end TriangleDetector
